import Mathlib

/-!
Verification development for the snapshot-based table storage engine described
in the repository's specification, together with shallow embeddings of the
tutorial scripts' own logic (timestamp-based snapshot resolution, catalog
configuration fallback, schema-evolution helper, and the sales amendment demo).

Engine components (snapshot log, commit protocol, scan planner, schema
evolution reads, metadata-pointer swap) are modelled from the spec, since the
repository only calls an external library for them; the functions
query_snapshot_by_timestamp, get_catalog / setup_catalog,
evolve_schema_add_fields and the sales amendment flow are translated directly
from the Python sources.
-/

namespace IceSpec

/-! ## Error taxonomy (spec section 7) -/

inductive IceErr where
  | ioError
  | notFound
  | schemaMismatch
  | incompatibleType
  | concurrentModification
  | noSnapshot
  | corruptMetadata
deriving DecidableEq

/-! ## Snapshot log and table state.

Modelled from the spec: the Snapshot & Metadata Log and the append path of the
Table Transaction Coordinator (spec sections 3, 4.4, 4.5, 4.6), which the
tutorial scripts exercise through table.append / table.scan /
table.snapshots but do not implement. A DataFile is an immutable file of
rows stored in the blob store under its path; a Manifest is a list of
DataFile entries with add/delete status; a Snapshot references a manifest
list, a schema id and its parent; the table state keeps the append-only
snapshot history, the current-snapshot pointer and a monotonic id counter. -/

structure DataFile (α : Type) where
  path : String
  rows : List α
deriving DecidableEq

inductive EntryStatus where
  | added
  | deleted
deriving DecidableEq

structure ManifestEntry (α : Type) where
  status : EntryStatus
  file : DataFile α
deriving DecidableEq

abbrev Manifest (α : Type) := List (ManifestEntry α)

structure Snapshot (α : Type) where
  snapshotId : Nat
  timestampMs : Int
  parentId : Option Nat
  schemaId : Nat
  manifests : List (Manifest α)
deriving DecidableEq

structure TableState (α : Type) where
  snapshots : List (Snapshot α)
  currentId : Option Nat
  lastId : Nat
  currentSchemaId : Nat
  store : List (String × DataFile α)
deriving DecidableEq

/-- Rows of the data files carried with status added by a manifest list. -/
def liveFiles {α : Type} (ms : List (Manifest α)) : List (DataFile α) :=
  ((ms.flatten).filter (fun e => e.status == EntryStatus.added)).map (fun e => e.file)

def snapshotRows {α : Type} (s : Snapshot α) : List α :=
  ((liveFiles s.manifests).map (fun f => f.rows)).flatten

def findSnapshot {α : Type} (t : TableState α) (id : Nat) : Option (Snapshot α) :=
  t.snapshots.find? (fun s => s.snapshotId == id)

def currentSnapshot {α : Type} (t : TableState α) : Option (Snapshot α) :=
  t.currentId.bind (findSnapshot t)

/-- Time-travel read: scan(snapshotId=S) resolves snapshot S and returns its
row-set; it never mutates the pointer. -/
def scanById {α : Type} (t : TableState α) (id : Nat) : Option (List α) :=
  (findSnapshot t id).map snapshotRows

/-- Unqualified scan: reads the current snapshot's row-set. -/
def scan {α : Type} (t : TableState α) : List α :=
  ((currentSnapshot t).map snapshotRows).getD []

def currentManifests {α : Type} (t : TableState α) : List (Manifest α) :=
  ((currentSnapshot t).map (fun s => s.manifests)).getD []

/-- Table with no snapshots yet (state right after createTable). -/
def emptyTable (α : Type) (schemaId : Nat) : TableState α :=
  { snapshots := [], currentId := none, lastId := 0,
    currentSchemaId := schemaId, store := [] }

/-- Append commit: writes the appended rows as a new immutable data file at a
fresh path, carries the current manifest list forward unchanged, adds one new
manifest holding the new file, and commits a new snapshot with a fresh
monotonic id whose parent is the previous current snapshot. Existing store
entries and snapshots are never touched. -/
def appendCommit {α : Type} (t : TableState α) (path : String) (rows : List α)
    (ts : Int) : TableState α :=
  let f : DataFile α := ⟨path, rows⟩
  let newId := t.lastId + 1
  let snap : Snapshot α :=
    ⟨newId, ts, t.currentId, t.currentSchemaId,
      currentManifests t ++ [[⟨EntryStatus.added, f⟩]]⟩
  { snapshots := t.snapshots ++ [snap]
    currentId := some newId
    lastId := newId
    currentSchemaId := t.currentSchemaId
    store := t.store ++ [(path, f)] }

/-- Optimistic commit (spec section 4.5): fails with ConcurrentModificationError
whenever the supplied parentSnapshotId does not equal the table's current
snapshot id at commit time; otherwise appends a new snapshot with a fresh
monotonic id and moves the current pointer to it. -/
def commit {α : Type} (t : TableState α) (parentSnapshotId : Option Nat)
    (newManifestList : List (Manifest α)) (newSchemaId : Nat) (ts : Int) :
    Except IceErr (TableState α) :=
  if parentSnapshotId = t.currentId then
    let newId := t.lastId + 1
    Except.ok
      { snapshots := t.snapshots ++ [⟨newId, ts, parentSnapshotId, newSchemaId, newManifestList⟩]
        currentId := some newId
        lastId := newId
        currentSchemaId := newSchemaId
        store := t.store }
  else
    Except.error IceErr.concurrentModification

/-- Well-formedness of a table state: every snapshot id, and the current
pointer, is bounded by the monotonic id counter. -/
def Inv {α : Type} (t : TableState α) : Prop :=
  (∀ s ∈ t.snapshots, s.snapshotId ≤ t.lastId) ∧
  (∀ c, t.currentId = some c → c ≤ t.lastId)

/-! ### A sequence of further append commits -/

/-- One append commit's payload: fresh file path, appended rows, timestamp. -/
abbrev CommitPayload (α : Type) := String × List α × Int

def applyCommits {α : Type} (t : TableState α) (cs : List (CommitPayload α)) :
    TableState α :=
  cs.foldl (fun acc c => appendCommit acc c.1 c.2.1 c.2.2) t

def witTable1 : TableState ℕ := appendCommit (emptyTable ℕ 0) "f1" [1, 2] 100

def witSnap1 : Snapshot ℕ :=
  ⟨1, 100, none, 0, [[⟨EntryStatus.added, ⟨"f1", [1, 2]⟩⟩]]⟩

/-! ## Sales amendment demo (sales_amendment_demo.py).

The row data below is translated directly from load_initial_sales_data and
process_sales_amendment; both functions call table.append, whose semantics
(append-only commit of a new immutable data file) is the engine model above. -/

structure DateTime where
  year : Nat
  month : Nat
  day : Nat
  hour : Nat
  minute : Nat
deriving DecidableEq

structure SalesRecord where
  order_id : String
  customer_id : String
  amount : Int
  order_date : DateTime
  status : String
  record_version : Nat
  created_at : DateTime
  is_current : Bool
  change_reason : Option String
deriving DecidableEq

/-- The three initial orders loaded by load_initial_sales_data. -/
def initialOrders : List SalesRecord :=
  [⟨"ORD-001", "CUST-123", 10000, ⟨2024, 1, 15, 10, 30⟩, "completed", 1,
      ⟨2024, 1, 15, 10, 30⟩, true, none⟩,
   ⟨"ORD-002", "CUST-456", 25000, ⟨2024, 1, 16, 14, 15⟩, "completed", 1,
      ⟨2024, 1, 16, 14, 15⟩, true, none⟩,
   ⟨"ORD-003", "CUST-789", 5000, ⟨2024, 1, 17, 9, 45⟩, "completed", 1,
      ⟨2024, 1, 17, 9, 45⟩, true, none⟩]

/-- The two rows appended by process_sales_amendment: a superseded copy of the
original ORD-001 row and the corrected row. -/
def amendmentRecords : List SalesRecord :=
  [⟨"ORD-001", "CUST-123", 10000, ⟨2024, 1, 15, 10, 30⟩, "completed", 1,
      ⟨2024, 1, 15, 10, 30⟩, false, some "Superseded by amendment"⟩,
   ⟨"ORD-001", "CUST-123", 12000, ⟨2024, 1, 15, 10, 30⟩, "completed", 2,
      ⟨2024, 1, 20, 16, 45⟩, true, some "Amount correction - discount applied"⟩]

/-- sales.orders right after create_sales_table_example, load_initial_sales_data
and process_sales_amendment have each run once. -/
def salesTableFinal : TableState SalesRecord :=
  appendCommit
    (appendCommit (emptyTable SalesRecord 0) "data/initial.parquet" initialOrders 1)
    "data/amendment.parquet" amendmentRecords 2

/-- The query from query_sales_with_amendments restricted to ORD-001: rows with
is_current = true for that order id. -/
def currentOrd001 : List SalesRecord :=
  (scan salesTableFinal).filter
    (fun r => r.is_current && r.order_id == "ORD-001")

/-! ## Metadata-pointer swap visibility (spec sections 4.6 and 5).

Modelled from the spec: the Table Transaction Coordinator writes the new
TableMetadata document under a fresh content-addressed key (never overwriting)
and then atomically swaps the current-pointer key; documents themselves are
immutable. A commit therefore passes through three observable store states:
before the document write, after the document write but before the pointer
swap, and after the pointer swap. A concurrent reader resolves the pointer at
one of these states and fetches the referenced immutable document at the same
or any later state. -/

structure PtrStore (δ : Type) where
  docs : List (Nat × δ)
  ptr : Nat
deriving DecidableEq

def getDoc {δ : Type} (st : PtrStore δ) (k : Nat) : Option δ :=
  st.docs.lookup k

/-- The three states a commit drives the store through: initial, document
written at the fresh key kNew, pointer swapped to kNew. -/
def commitStates {δ : Type} (st0 : PtrStore δ) (kNew : Nat) (newDoc : δ)
    (i : Fin 3) : PtrStore δ :=
  if i.val = 0 then st0
  else if i.val = 1 then ⟨st0.docs ++ [(kNew, newDoc)], st0.ptr⟩
  else ⟨st0.docs ++ [(kNew, newDoc)], kNew⟩

/-- A concurrent read: resolve the pointer at state i, fetch the document at
state j (the read's two steps may be separated by commit steps, so i ≤ j). -/
def readAt {δ : Type} (st0 : PtrStore δ) (kNew : Nat) (newDoc : δ)
    (i j : Fin 3) : Option δ :=
  getDoc (commitStates st0 kNew newDoc j) (commitStates st0 kNew newDoc i).ptr

/-! ## Scan planner pruning (spec section 4.4).

Modelled from the spec: planScan evaluates the predicate against each data
file's per-column min/max statistics and excludes a file only when the
predicate is provably false over the file's full min/max range. Predicates are
conjunctions of column comparisons, as built in demonstrate_filtering_reads
(And, GreaterThanOrEqual, LessThan). A column with no recorded statistics is
never used to exclude a file. -/

structure ColRange where
  lo : Int
  hi : Int
deriving DecidableEq

structure StatFile where
  path : String
  rows : List (List Int)
  stats : List (Option ColRange)
deriving DecidableEq

def colVal (r : List Int) (c : Nat) : Int := r.getD c 0

def statRange (st : List (Option ColRange)) (c : Nat) : Option ColRange :=
  st.getD c none

inductive Pred where
  | geC (c : Nat) (v : Int)
  | ltC (c : Nat) (v : Int)
  | eqC (c : Nat) (v : Int)
  | conj (p q : Pred)

def evalPred : Pred → List Int → Bool
  | Pred.geC c v, r => decide (v ≤ colVal r c)
  | Pred.ltC c v, r => decide (colVal r c < v)
  | Pred.eqC c v, r => decide (colVal r c = v)
  | Pred.conj p q, r => evalPred p r && evalPred q r

/-- Conservative statistics check: true unless the predicate is provably false
for every value inside the recorded min/max range. -/
def canMatch : Pred → List (Option ColRange) → Bool
  | Pred.geC c v, st =>
    match statRange st c with
    | none => true
    | some rg => decide (v ≤ rg.hi)
  | Pred.ltC c v, st =>
    match statRange st c with
    | none => true
    | some rg => decide (rg.lo < v)
  | Pred.eqC c v, st =>
    match statRange st c with
    | none => true
    | some rg => decide (rg.lo ≤ v ∧ v ≤ rg.hi)
  | Pred.conj p q, st => canMatch p st && canMatch q st

def planScan (files : List StatFile) (p : Pred) : List StatFile :=
  files.filter (fun f => canMatch p f.stats)

/-- The file's statistics really bound its rows. -/
def StatsCorrect (f : StatFile) : Prop :=
  ∀ r ∈ f.rows, ∀ c rg, statRange f.stats c = some rg →
    rg.lo ≤ colVal r c ∧ colVal r c ≤ rg.hi

/-- Executable check of StatsCorrect, for concrete instances. -/
def statsCorrectB (f : StatFile) : Bool :=
  f.rows.all (fun r =>
    (List.range f.stats.length).all (fun c =>
      match statRange f.stats c with
      | none => true
      | some rg => decide (rg.lo ≤ colVal r c ∧ colVal r c ≤ rg.hi)))

def witStatFile : StatFile :=
  ⟨"day1.parquet", [[5, 100], [9, 200]], [some ⟨5, 9⟩, some ⟨100, 200⟩]⟩

/-! ## Timestamp-based snapshot resolution (05_time_travel_queries.py).

query_snapshot_by_timestamp iterates table.snapshots() in list order; every
snapshot whose creation time is at or before the target becomes the candidate,
and the loop breaks at the first snapshot after the target; with no candidate
it reports that no snapshot was found. -/

structure SnapInfo where
  snapshotId : Nat
  timestampMs : Int
deriving DecidableEq

/-- The snapshot-selection loop of query_snapshot_by_timestamp, translated
statement by statement (including the early break). -/
def findTargetSnapshot : List SnapInfo → Int → Option SnapInfo
  | [], _ => none
  | s :: rest, target =>
    if s.timestampMs ≤ target then some ((findTargetSnapshot rest target).getD s)
    else none

/-! ## Catalog configuration resolution (01_create_table.py / 02_initial_load.py
/ 02_catalog_setup.py).

get_catalog first writes .pyiceberg.yaml when it is absent, then calls
load_catalog with direct keyword configuration (the kwargs are constants in
the source) and, on any exception, silently falls back to
load_catalog("default"), which reads the config file. setup_catalog and
test_catalog_connection follow the same try-direct-then-file shape. The
environment records the only two facts the control flow branches on. -/

inductive ConfigPath where
  | direct
  | configFile
deriving DecidableEq

structure CatalogEnv where
  configFileExists : Bool
  directLoadSucceeds : Bool
deriving DecidableEq

structure CatalogResult where
  pathTaken : ConfigPath
  wroteConfigFile : Bool
deriving DecidableEq

/-- get_catalog translated from 02_initial_load.py. -/
def get_catalog (env : CatalogEnv) : CatalogResult :=
  let wrote := !env.configFileExists
  if env.directLoadSucceeds then ⟨ConfigPath.direct, wrote⟩
  else ⟨ConfigPath.configFile, wrote⟩

/-! ## Schemas and schema evolution (spec section 4.3, 03_schema_evolution.py).

Fields carry permanent unique integer ids; evolution adds nullable fields with
a fresh id, renames by id, or widens a type along the explicit promotion table
(int32 to int64). -/

inductive FType where
  | int32
  | int64
  | stringT
  | boolT
  | timestampT
deriving DecidableEq

structure NestedField where
  fieldId : Nat
  name : String
  ftype : FType
  required : Bool
deriving DecidableEq

structure Schema where
  fields : List NestedField
deriving DecidableEq

def schemaNames (s : Schema) : List String := s.fields.map (fun f => f.name)

def schemaIds (s : Schema) : List Nat := s.fields.map (fun f => f.fieldId)

/-- Next unused field id: one past the highest id in use. -/
def nextFieldId (s : Schema) : Nat := (schemaIds s).foldr Nat.max 0 + 1

/-- update.add_column: appends a new optional field under a fresh id. -/
def addColumn (s : Schema) (n : String) (t : FType) : Schema :=
  ⟨s.fields ++ [⟨nextFieldId s, n, t, false⟩]⟩

/-- The three enhanced fields of 03_schema_evolution.py. -/
def fieldsToAdd : List (String × FType) :=
  [("user_country", FType.stringT), ("browser", FType.stringT),
   ("is_mobile", FType.boolT)]

/-- evolve_schema_add_fields translated from 03_schema_evolution.py: the set of
existing field names is computed once from the current schema; each target
field is added only when its name is not in that set. -/
def evolveSchemaAddFields (s : Schema) : Schema :=
  fieldsToAdd.foldl
    (fun acc p =>
      if (schemaNames s).contains p.1 then acc else addColumn acc p.1 p.2) s

def witEvolvedSchema : Schema :=
  ⟨[⟨1, "user_country", FType.stringT, false⟩,
    ⟨2, "browser", FType.stringT, false⟩,
    ⟨3, "is_mobile", FType.boolT, false⟩]⟩

/-! ## Reading old data files under an evolved schema.

Modelled from the spec: data files are bound to the schema version they were
written under; a read under a newer schema resolves each field by its
permanent id — a field whose id is absent from the file's schema reads as
NULL, a field whose type was widened reads the promoted value (spec sections
3, 4.2, 4.3 and testable property 2). -/

inductive Value where
  | vInt32 (n : Int)
  | vInt64 (n : Int)
  | vStr (s : String)
  | vBool (b : Bool)
  | vTs (n : Int)
deriving DecidableEq

def typeOf : Value → FType
  | Value.vInt32 _ => FType.int32
  | Value.vInt64 _ => FType.int64
  | Value.vStr _ => FType.stringT
  | Value.vBool _ => FType.boolT
  | Value.vTs _ => FType.timestampT

/-- The explicit promotion table: int32 may widen to int64; nothing else. -/
def allowedWidening : FType → FType → Bool
  | FType.int32, FType.int64 => true
  | _, _ => false

def canPromote (a b : FType) : Bool := a == b || allowedWidening a b

/-- Value-level promotion along the promotion table. -/
def promoteValue (v : Value) (target : FType) : Option Value :=
  if typeOf v == target then some v
  else
    match v, target with
    | Value.vInt32 n, FType.int64 => some (Value.vInt64 n)
    | _, _ => none

inductive SchemaOp where
  | addField (n : String) (t : FType)
  | renameField (id : Nat) (newName : String)
  | promoteType (id : Nat) (newType : FType)

/-- One schema-evolution operation (spec section 4.3): add a nullable field
under the next unused id, rename a field by id, or widen a field's type,
failing with IncompatibleTypeError unless the change is an allowed widening. -/
def applyOp (s : Schema) : SchemaOp → Except IceErr Schema
  | SchemaOp.addField n t =>
    Except.ok ⟨s.fields ++ [⟨nextFieldId s, n, t, false⟩]⟩
  | SchemaOp.renameField id n =>
    Except.ok ⟨s.fields.map (fun f =>
      if f.fieldId == id then { f with name := n } else f)⟩
  | SchemaOp.promoteType id t =>
    match s.fields.find? (fun f => f.fieldId == id) with
    | none => Except.error IceErr.notFound
    | some f =>
      if allowedWidening f.ftype t then
        Except.ok ⟨s.fields.map (fun g =>
          if g.fieldId == id then { g with ftype := t } else g)⟩
      else Except.error IceErr.incompatibleType

def applyOps (s : Schema) : List SchemaOp → Except IceErr Schema
  | [] => Except.ok s
  | op :: rest =>
    match applyOp s op with
    | Except.ok s₁ => applyOps s₁ rest
    | Except.error e => Except.error e

/-- A row as stored in a data file: values keyed by permanent field id. -/
abbrev FileRow := List (Nat × Value)

/-- Reading one field of the read schema out of a file written under
fileSchema: NULL when the field id is absent from the file's schema, the
(possibly promoted) stored value otherwise. -/
def readField (fileSchema : Schema) (row : FileRow) (f : NestedField) : Option Value :=
  match fileSchema.fields.find? (fun g => g.fieldId == f.fieldId) with
  | none => none
  | some _ => (row.lookup f.fieldId).bind (fun v => promoteValue v f.ftype)

/-- Reading a full row of the file under the read schema. -/
def readRow (fileSchema : Schema) (row : FileRow) (readSchema : Schema) :
    List (Nat × Option Value) :=
  readSchema.fields.map (fun f => (f.fieldId, readField fileSchema row f))

/-- The row really was written under the file's schema: every field of that
schema has a stored value of the field's type. -/
def WellTyped (s : Schema) (row : FileRow) : Prop :=
  ∀ f ∈ s.fields, ∃ v, row.lookup f.fieldId = some v ∧ typeOf v = f.ftype

def witFileSchema : Schema :=
  ⟨[⟨1, "status_code", FType.int32, true⟩, ⟨2, "url", FType.stringT, true⟩]⟩

def witEvolveOps : List SchemaOp :=
  [SchemaOp.addField "user_country" FType.stringT,
   SchemaOp.renameField 1 "http_status",
   SchemaOp.promoteType 1 FType.int64]

def witReadSchema : Schema :=
  ⟨[⟨1, "http_status", FType.int64, true⟩, ⟨2, "url", FType.stringT, true⟩,
    ⟨3, "user_country", FType.stringT, false⟩]⟩

def witFileRow : FileRow := [(1, Value.vInt32 200), (2, Value.vStr "/api")]

/-! ### Basic list helper lemmas -/

theorem find?_append_left {α : Type} {p : α → Bool} {l₁ l₂ : List α} {a : α}
    (h : l₁.find? p = some a) : (l₁ ++ l₂).find? p = some a := by
  induction l₁ with
  | nil => simp [List.find?] at h
  | cons x xs ih =>
    simp only [List.cons_append, List.find?]
    cases hx : p x with
    | true => simpa [List.find?, hx] using h
    | false =>
      simp only [List.find?, hx] at h
      exact ih h

theorem find?_append_none {α : Type} {p : α → Bool} {l₁ l₂ : List α}
    (h : l₁.find? p = none) : (l₁ ++ l₂).find? p = l₂.find? p := by
  induction l₁ with
  | nil => simp
  | cons x xs ih =>
    simp only [List.find?] at h
    cases hx : p x with
    | true => simp [hx] at h
    | false =>
      simp only [hx] at h
      simpa [List.find?, hx] using ih h

theorem lookup_append_left {κ β : Type} [BEq κ] {k : κ} {l₁ l₂ : List (κ × β)} {v : β}
    (h : l₁.lookup k = some v) : (l₁ ++ l₂).lookup k = some v := by
  induction l₁ with
  | nil => simp [List.lookup] at h
  | cons x xs ih =>
    simp only [List.cons_append, List.lookup]
    cases hx : (k == x.1) with
    | true => simpa [List.lookup, hx] using h
    | false =>
      simp only [List.lookup, hx] at h
      exact ih h

theorem lookup_append_none {κ β : Type} [BEq κ] {k : κ} {l₁ l₂ : List (κ × β)}
    (h : l₁.lookup k = none) : (l₁ ++ l₂).lookup k = l₂.lookup k := by
  induction l₁ with
  | nil => simp
  | cons x xs ih =>
    simp only [List.lookup] at h
    cases hx : (k == x.1) with
    | true => simp [hx] at h
    | false =>
      simp only [hx] at h
      simpa [List.lookup, hx] using ih h

/-! ### Preservation lemmas for the snapshot log -/

theorem findSnapshot_appendCommit {α : Type} {t : TableState α} {id : Nat}
    {s : Snapshot α} (h : findSnapshot t id = some s)
    (path : String) (rows : List α) (ts : Int) :
    findSnapshot (appendCommit t path rows ts) id = some s := by
  unfold findSnapshot at h ⊢
  unfold appendCommit
  exact find?_append_left h

theorem snapshotId_of_findSnapshot {α : Type} {t : TableState α} {id : Nat}
    {s : Snapshot α} (h : findSnapshot t id = some s) : s.snapshotId = id := by
  unfold findSnapshot at h
  have := List.find?_some h
  simpa using this

theorem mem_of_findSnapshot {α : Type} {t : TableState α} {id : Nat}
    {s : Snapshot α} (h : findSnapshot t id = some s) : s ∈ t.snapshots :=
  List.mem_of_find?_eq_some h

theorem Inv_appendCommit {α : Type} {t : TableState α} (h : Inv t)
    (path : String) (rows : List α) (ts : Int) :
    Inv (appendCommit t path rows ts) := by
  obtain ⟨h1, h2⟩ := h
  constructor
  · intro s hs
    simp only [appendCommit, List.mem_append, List.mem_singleton] at hs
    rcases hs with hs | hs
    · exact Nat.le_succ_of_le (h1 s hs)
    · subst hs; simp [appendCommit]
  · intro c hc
    simp only [appendCommit, Option.some.injEq] at hc
    simp [appendCommit, ← hc]

/-- With a well-formed state, the snapshot committed by an append is found at
the fresh id, so the new current snapshot is exactly the appended one. -/
theorem currentSnapshot_appendCommit {α : Type} {t : TableState α} (h : Inv t)
    (path : String) (rows : List α) (ts : Int) :
    currentSnapshot (appendCommit t path rows ts) =
      some ⟨t.lastId + 1, ts, t.currentId, t.currentSchemaId,
        currentManifests t ++ [[⟨EntryStatus.added, ⟨path, rows⟩⟩]]⟩ := by
  obtain ⟨h1, _⟩ := h
  have hnone : t.snapshots.find? (fun s => s.snapshotId == t.lastId + 1) = none := by
    rw [List.find?_eq_none]
    intro s hs
    have := h1 s hs
    simp only [beq_iff_eq]
    omega
  simp only [currentSnapshot, appendCommit, Option.bind, findSnapshot]
  rw [find?_append_none hnone]
  simp [List.find?]

theorem scan_eq_snapshotRows {α : Type} {t : TableState α} {s : Snapshot α}
    (h : currentSnapshot t = some s) : scan t = snapshotRows s := by
  simp [scan, h]

theorem liveFiles_append {α : Type} (ms₁ ms₂ : List (Manifest α)) :
    liveFiles (ms₁ ++ ms₂) = liveFiles ms₁ ++ liveFiles ms₂ := by
  simp [liveFiles]

/-- Appending rows extends the current row-set on the right. -/
theorem scan_appendCommit {α : Type} {t : TableState α} (h : Inv t)
    (path : String) (rows : List α) (ts : Int) :
    scan (appendCommit t path rows ts) = scan t ++ rows := by
  rw [scan_eq_snapshotRows (currentSnapshot_appendCommit h path rows ts)]
  simp only [snapshotRows, liveFiles_append]
  have hlast : liveFiles ([[⟨EntryStatus.added, (⟨path, rows⟩ : DataFile α)⟩]]) =
      [⟨path, rows⟩] := by
    simp [liveFiles]
  rw [hlast]
  cases hc : currentSnapshot t with
  | none =>
    have : currentManifests t = [] := by simp [currentManifests, hc]
    simp [scan, hc, this, liveFiles]
  | some s =>
    have hm : currentManifests t = s.manifests := by simp [currentManifests, hc]
    rw [hm, scan_eq_snapshotRows hc]
    simp [snapshotRows]

theorem scanById_applyCommits {α : Type} {t : TableState α} {id : Nat} {v : List α}
    (h : scanById t id = some v) (cs : List (CommitPayload α)) :
    scanById (applyCommits t cs) id = some v := by
  induction cs generalizing t with
  | nil => exact h
  | cons c rest ih =>
    simp only [applyCommits, List.foldl]
    apply ih
    simp only [scanById] at h ⊢
    cases hf : findSnapshot t id with
    | none => simp [hf] at h
    | some s =>
      rw [findSnapshot_appendCommit hf]
      simpa [hf] using h

/-! ## Claim theorems about the snapshot log -/

/-- C1: for every snapshot S in a table's history (in particular the snapshot
that is current immediately after S was committed) and every sequence of
further append commits, scanning at snapshot S afterwards returns exactly the
rows that an unqualified scan returned immediately after S was committed;
historical reads are unaffected by later appends. -/
theorem scan_snapshot_time_travel {α : Type} (t : TableState α) (s : Snapshot α)
    (cs : List (CommitPayload α)) (h : currentSnapshot t = some s) :
    scan t = snapshotRows s ∧
    scanById (applyCommits t cs) s.snapshotId = some (snapshotRows s) := by
  refine ⟨scan_eq_snapshotRows h, ?_⟩
  simp only [currentSnapshot, Option.bind_eq_some] at h
  obtain ⟨c, hc, hfind⟩ := h
  have hid : s.snapshotId = c := snapshotId_of_findSnapshot hfind
  have hscan : scanById t s.snapshotId = some (snapshotRows s) := by
    simp [scanById, hid, hfind]
  exact scanById_applyCommits hscan cs

theorem scan_snapshot_time_travel_witness :
    scan witTable1 = snapshotRows witSnap1 ∧
    scanById (applyCommits witTable1 [("f2", [3], 200)]) witSnap1.snapshotId =
      some (snapshotRows witSnap1) :=
  scan_snapshot_time_travel witTable1 witSnap1 [("f2", [3], 200)] (by decide)

/-- C5: an append never mutates or deletes an existing data file: every blob
previously stored at some path is still stored there unchanged, every prior
snapshot is still in the history, and the resulting current row-set equals the
prior row-set plus exactly the appended rows. -/
theorem appendCommit_frame {α : Type} (t : TableState α) (path : String)
    (rows : List α) (ts : Int) (h : Inv t) :
    (∀ k f, t.store.lookup k = some f →
      (appendCommit t path rows ts).store.lookup k = some f) ∧
    (∀ s ∈ t.snapshots, s ∈ (appendCommit t path rows ts).snapshots) ∧
    scan (appendCommit t path rows ts) = scan t ++ rows := by
  refine ⟨?_, ?_, scan_appendCommit h path rows ts⟩
  · intro k f hk
    simpa [appendCommit] using lookup_append_left hk
  · intro s hs
    simp [appendCommit, List.mem_append, hs]

theorem appendCommit_frame_witness :
    (∀ k f, witTable1.store.lookup k = some f →
      (appendCommit witTable1 "f2" [3] 200).store.lookup k = some f) ∧
    (∀ s ∈ witTable1.snapshots, s ∈ (appendCommit witTable1 "f2" [3] 200).snapshots) ∧
    scan (appendCommit witTable1 "f2" [3] 200) = scan witTable1 ++ [3] :=
  appendCommit_frame witTable1 "f2" [3] 200
    ⟨by decide, by intro c hc; simp [witTable1, appendCommit, emptyTable] at hc ⊢; omega⟩

/-- C6: a commit against a stale base is rejected, never double-applied: commit
fails with ConcurrentModificationError whenever its parentSnapshotId differs
from the table's current snapshot id, and re-running an identical commit
payload after it has once succeeded (so the base has advanced) also fails with
ConcurrentModificationError instead of applying the payload twice. -/
theorem commit_stale_base {α : Type} (t : TableState α) (p : Option Nat)
    (ml : List (Manifest α)) (sid : Nat) (ts : Int) (h : Inv t) :
    (p ≠ t.currentId → commit t p ml sid ts = Except.error IceErr.concurrentModification) ∧
    (∀ t', commit t p ml sid ts = Except.ok t' →
      commit t' p ml sid ts = Except.error IceErr.concurrentModification) := by
  constructor
  · intro hp
    simp [commit, hp]
  · intro t' hok
    by_cases hp : p = t.currentId
    · simp only [commit, if_pos hp] at hok
      have ht' : t'.currentId = some (t.lastId + 1) := by
        cases hok; rfl
      have hne : p ≠ t'.currentId := by
        rw [ht', hp]
        cases hc : t.currentId with
        | none => simp
        | some c =>
          have hcle := h.2 c hc
          intro heq
          have hceq : c = t.lastId + 1 := by injection heq
          omega
      simp [commit, hne]
    · simp [commit, hp] at hok

theorem commit_stale_base_witness :
    commit (emptyTable ℕ 0) (some 5) [] 0 0 =
      Except.error IceErr.concurrentModification ∧
    commit (⟨[⟨1, 0, none, 0, []⟩], some 1, 1, 0, []⟩ : TableState ℕ) none [] 0 0 =
      Except.error IceErr.concurrentModification :=
  ⟨(commit_stale_base (emptyTable ℕ 0) (some 5) [] 0 0
      ⟨by decide, by intro c hc; simp [emptyTable] at hc⟩).1 (by decide),
   (commit_stale_base (emptyTable ℕ 0) none [] 0 0
      ⟨by decide, by intro c hc; simp [emptyTable] at hc⟩).2
      ⟨[⟨1, 0, none, 0, []⟩], some 1, 1, 0, []⟩ (by rfl)⟩

/-- C9: the amendment flow only appends: the final row-set is the initial load
plus the amendment rows, the originally loaded ORD-001 row (amount 10000,
is_current = true) is still present, and the business query for current
ORD-001 rows returns the two rows with amounts 10000 and 12000, not one. -/
theorem sales_amendment_append_only :
    scan salesTableFinal = initialOrders ++ amendmentRecords ∧
    currentOrd001 =
      [⟨"ORD-001", "CUST-123", 10000, ⟨2024, 1, 15, 10, 30⟩, "completed", 1,
          ⟨2024, 1, 15, 10, 30⟩, true, none⟩,
       ⟨"ORD-001", "CUST-123", 12000, ⟨2024, 1, 15, 10, 30⟩, "completed", 2,
          ⟨2024, 1, 20, 16, 45⟩, true, some "Amount correction - discount applied"⟩] ∧
    currentOrd001.map (fun r => r.amount) = [10000, 12000] := by
  refine ⟨?_, ?_, ?_⟩ <;> rfl

/-- C2: no reader ever observes a partially applied commit: whatever point of
the commit the reader's pointer resolution and document fetch fall at, the
read returns either the fully-prior metadata document or the fully-new one,
never a mixture; the pointer swap is the sole visibility boundary. -/
theorem no_partial_commit_visible {δ : Type} (st0 : PtrStore δ) (kNew : Nat)
    (newDoc oldDoc : δ)
    (hFresh : st0.docs.lookup kNew = none)
    (hOld : getDoc st0 st0.ptr = some oldDoc)
    (i j : Fin 3) (hij : i ≤ j) :
    readAt st0 kNew newDoc i j = some oldDoc ∨
    readAt st0 kNew newDoc i j = some newDoc := by
  have hnew : (st0.docs ++ [(kNew, newDoc)]).lookup kNew = some newDoc := by
    rw [lookup_append_none hFresh]
    simp [List.lookup]
  rcases i with ⟨iv, hi⟩
  rcases j with ⟨jv, hj⟩
  have hvij : iv ≤ jv := hij
  interval_cases iv <;> interval_cases jv <;>
    simp_all [readAt, commitStates, getDoc, lookup_append_left hOld]

theorem no_partial_commit_visible_witness :
    readAt (⟨[(0, "metadata-v0")], 0⟩ : PtrStore String) 1 "metadata-v1" 1 2 =
      some "metadata-v0" ∨
    readAt (⟨[(0, "metadata-v0")], 0⟩ : PtrStore String) 1 "metadata-v1" 1 2 =
      some "metadata-v1" :=
  no_partial_commit_visible ⟨[(0, "metadata-v0")], 0⟩ 1 "metadata-v1" "metadata-v0"
    (by rfl) (by rfl) 1 2 (by decide)

theorem canMatch_of_matching_row {f : StatFile} {r : List Int}
    (hst : StatsCorrect f) (hr : r ∈ f.rows) :
    ∀ p : Pred, evalPred p r = true → canMatch p f.stats = true := by
  intro p
  induction p with
  | geC c v =>
    intro hp
    simp only [evalPred, decide_eq_true_eq] at hp
    simp only [canMatch]
    cases hrg : statRange f.stats c with
    | none => rfl
    | some rg =>
      have := hst r hr c rg hrg
      simp only [decide_eq_true_eq]
      omega
  | ltC c v =>
    intro hp
    simp only [evalPred, decide_eq_true_eq] at hp
    simp only [canMatch]
    cases hrg : statRange f.stats c with
    | none => rfl
    | some rg =>
      have := hst r hr c rg hrg
      simp only [decide_eq_true_eq]
      omega
  | eqC c v =>
    intro hp
    simp only [evalPred, decide_eq_true_eq] at hp
    simp only [canMatch]
    cases hrg : statRange f.stats c with
    | none => rfl
    | some rg =>
      have := hst r hr c rg hrg
      simp only [decide_eq_true_eq]
      omega
  | conj p q ihp ihq =>
    intro hp
    simp only [evalPred, Bool.and_eq_true] at hp
    simp only [canMatch, Bool.and_eq_true]
    exact ⟨ihp hp.1, ihq hp.2⟩

/-- C7: scan-time file pruning is conservative (sound): any file of the scanned
snapshot containing at least one row that satisfies the predicate is included
in the planned file set; a file can only be dropped when the predicate is
provably false over its full min/max statistics range. -/
theorem planScan_sound (files : List StatFile) (p : Pred) (f : StatFile)
    (r : List Int) (hf : f ∈ files) (hst : StatsCorrect f) (hr : r ∈ f.rows)
    (hp : evalPred p r = true) : f ∈ planScan files p := by
  unfold planScan
  rw [List.mem_filter]
  exact ⟨hf, canMatch_of_matching_row hst hr p hp⟩

theorem statsCorrect_of_B {f : StatFile} (h : statsCorrectB f = true) :
    StatsCorrect f := by
  intro r hr c rg hrg
  have hc : c < f.stats.length := by
    by_contra hge
    push_neg at hge
    rw [statRange, List.getD_eq_default _ _ hge] at hrg
    cases hrg
  rw [statsCorrectB, List.all_eq_true] at h
  have hrow := h r hr
  rw [List.all_eq_true] at hrow
  have hcell := hrow c (List.mem_range.mpr hc)
  rw [hrg] at hcell
  simpa using hcell

theorem planScan_sound_witness :
    witStatFile ∈ planScan [witStatFile] (Pred.conj (Pred.geC 0 6) (Pred.ltC 0 10)) :=
  planScan_sound [witStatFile] (Pred.conj (Pred.geC 0 6) (Pred.ltC 0 10))
    witStatFile [9, 200] (by decide) (statsCorrect_of_B (by decide))
    (by decide) (by decide)

/-- C3 counterexample: on the snapshot history [snapshot 1 at time 10,
snapshot 2 at time 5] with target time 7, the tutorial loop reports that no
snapshot exists, although snapshot 2 has creation time 5 ≤ 7 — so as stated,
over every snapshot history, the claim is false: the code does not return the
latest snapshot with creation time at or before the target, and it can report
failure while such a snapshot exists. -/
theorem findTargetSnapshot_counterexample :
    findTargetSnapshot [⟨1, 10⟩, ⟨2, 5⟩] 7 = none ∧
    (⟨2, 5⟩ : SnapInfo) ∈ [(⟨1, 10⟩ : SnapInfo), ⟨2, 5⟩] ∧
    (⟨2, 5⟩ : SnapInfo).timestampMs ≤ 7 := by
  refine ⟨rfl, ?_, ?_⟩ <;> decide

/-- C3 amended: when the snapshot history is listed in non-decreasing creation
time order (the case for histories produced by sequential commits under a
monotone clock), the loop returns a snapshot of the history with creation time
at or before the target and maximal creation time among those, and it reports
no snapshot found exactly when no snapshot has creation time at or before the
target. -/
theorem findTargetSnapshot_sorted (snaps : List SnapInfo) (target : Int)
    (hsorted : snaps.Pairwise (fun a b => a.timestampMs ≤ b.timestampMs)) :
    (findTargetSnapshot snaps target = none ↔
      ∀ s ∈ snaps, target < s.timestampMs) ∧
    (∀ s, findTargetSnapshot snaps target = some s →
      s ∈ snaps ∧ s.timestampMs ≤ target ∧
      ∀ s' ∈ snaps, s'.timestampMs ≤ target → s'.timestampMs ≤ s.timestampMs) := by
  induction snaps with
  | nil => simp [findTargetSnapshot]
  | cons a rest ih =>
    rw [List.pairwise_cons] at hsorted
    obtain ⟨ha, hrest⟩ := hsorted
    obtain ⟨ihnone, ihsome⟩ := ih hrest
    by_cases hat : a.timestampMs ≤ target
    · constructor
      · simp only [findTargetSnapshot, if_pos hat]
        constructor
        · intro h; cases h
        · intro h
          exact absurd hat (not_le.mpr (h a (List.mem_cons_self a rest)))
      · intro s hs
        simp only [findTargetSnapshot, if_pos hat, Option.some.injEq] at hs
        cases hfr : findTargetSnapshot rest target with
        | none =>
          rw [hfr] at hs
          simp only [Option.getD] at hs
          subst hs
          refine ⟨List.mem_cons_self a rest, hat, ?_⟩
          intro s' hs' hs't
          rcases List.mem_cons.mp hs' with h | h
          · subst h; exact le_refl _
          · exact absurd hs't (not_le.mpr (ihnone.mp hfr s' h))
        | some s₀ =>
          rw [hfr] at hs
          simp only [Option.getD] at hs
          subst hs
          obtain ⟨hmem, hle, hmax⟩ := ihsome s₀ hfr
          refine ⟨List.mem_cons_of_mem a hmem, hle, ?_⟩
          intro s' hs' hs't
          rcases List.mem_cons.mp hs' with h | h
          · subst h; exact le_trans (ha s₀ hmem) (le_refl _)
          · exact hmax s' h hs't
    · constructor
      · simp only [findTargetSnapshot, if_neg hat]
        constructor
        · intro _ s hs
          rcases List.mem_cons.mp hs with h | h
          · subst h; exact lt_of_not_le hat
          · exact lt_of_lt_of_le (lt_of_not_le hat) (ha s h)
        · intro _; trivial
      · intro s hs
        simp [findTargetSnapshot, if_neg hat] at hs

theorem findTargetSnapshot_sorted_witness :
    (findTargetSnapshot [⟨1, 5⟩, ⟨2, 6⟩, ⟨3, 9⟩] 7 = none ↔
      ∀ s ∈ [(⟨1, 5⟩ : SnapInfo), ⟨2, 6⟩, ⟨3, 9⟩], 7 < s.timestampMs) ∧
    (∀ s, findTargetSnapshot [⟨1, 5⟩, ⟨2, 6⟩, ⟨3, 9⟩] 7 = some s →
      s ∈ [(⟨1, 5⟩ : SnapInfo), ⟨2, 6⟩, ⟨3, 9⟩] ∧ s.timestampMs ≤ 7 ∧
      ∀ s' ∈ [(⟨1, 5⟩ : SnapInfo), ⟨2, 6⟩, ⟨3, 9⟩], s'.timestampMs ≤ 7 →
        s'.timestampMs ≤ s.timestampMs) :=
  findTargetSnapshot_sorted [⟨1, 5⟩, ⟨2, 6⟩, ⟨3, 9⟩] 7 (by decide)

/-- C8 counterexample: two runs with identical explicit configuration (the
keyword arguments are fixed constants in the source) take different
configuration paths depending only on whether the direct load raises, and the
failed direct load silently falls back to the config-file path instead of
surfacing an error — so the claimed single deterministic order (explicit args,
else config struct, else error) with no silent fallback is false of this code. -/
theorem get_catalog_fallback_counterexample :
    (get_catalog ⟨true, false⟩).pathTaken = ConfigPath.configFile ∧
    (get_catalog ⟨true, true⟩).pathTaken = ConfigPath.direct := by
  exact ⟨rfl, rfl⟩

/-- C8 amended: catalog configuration resolution in the tutorials is a
two-path fallback, not a single deterministic order: the direct keyword
configuration is tried first and, exactly when it fails, the catalog is
silently loaded through the config file; no error path exists, and the path
taken is determined by the run-time success of the direct load rather than by
the explicit arguments alone. -/
theorem get_catalog_two_path (env : CatalogEnv) :
    get_catalog env =
      ⟨if env.directLoadSucceeds then ConfigPath.direct else ConfigPath.configFile,
        !env.configFileExists⟩ := by
  unfold get_catalog
  by_cases h : env.directLoadSucceeds = true <;> simp [h]

theorem schemaNames_addColumn (s : Schema) (n : String) (t : FType) :
    schemaNames (addColumn s n t) = schemaNames s ++ [n] := by
  simp [schemaNames, addColumn]

theorem names_foldl_mono (ex : List String) (l : List (String × FType))
    (acc : Schema) (m : String) (hm : m ∈ schemaNames acc) :
    m ∈ schemaNames (l.foldl
      (fun a p => if ex.contains p.1 then a else addColumn a p.1 p.2) acc) := by
  induction l generalizing acc with
  | nil => exact hm
  | cons p rest ih =>
    simp only [List.foldl]
    apply ih
    cases hc : ex.contains p.1 with
    | true => simpa [hc] using hm
    | false => simp [hc, schemaNames_addColumn, List.mem_append, hm]

theorem targets_foldl (ex : List String) (l : List (String × FType)) (acc : Schema)
    (hex : ∀ m ∈ ex, m ∈ schemaNames acc) :
    ∀ p ∈ l, p.1 ∈ schemaNames (l.foldl
      (fun a q => if ex.contains q.1 then a else addColumn a q.1 q.2) acc) := by
  induction l generalizing acc with
  | nil => intro p hp; cases hp
  | cons q rest ih =>
    intro p hp
    simp only [List.foldl]
    have hmono : ∀ m ∈ schemaNames acc,
        m ∈ schemaNames (if ex.contains q.1 then acc else addColumn acc q.1 q.2) := by
      intro m hm
      cases hc : ex.contains q.1 with
      | true => simpa [hc] using hm
      | false => simp [hc, schemaNames_addColumn, List.mem_append, hm]
    rcases List.mem_cons.mp hp with h | h
    · subst h
      have hq : p.1 ∈ schemaNames (if ex.contains p.1 then acc else addColumn acc p.1 p.2) := by
        cases hc : ex.contains p.1 with
        | true =>
          have hpex : p.1 ∈ ex := by
            have := List.contains_iff_exists_mem_beq.mp hc
            obtain ⟨a, ha, hab⟩ := this
            have : p.1 = a := by simpa using hab
            simpa [this] using ha
          simpa [hc] using hex p.1 hpex
        | false => simp [hc, schemaNames_addColumn, List.mem_append]
      exact names_foldl_mono ex rest _ p.1 hq
    · exact ih _ (fun m hm => hmono m (hex m hm)) p h

theorem foldl_skip_all (ex : List String) (l : List (String × FType)) (acc : Schema)
    (h : ∀ p ∈ l, ex.contains p.1 = true) :
    l.foldl (fun a q => if ex.contains q.1 then a else addColumn a q.1 q.2) acc = acc := by
  induction l generalizing acc with
  | nil => rfl
  | cons q rest ih =>
    simp only [List.foldl]
    rw [if_pos (h q (List.mem_cons_self q rest))]
    exact ih acc (fun p hp => h p (List.mem_cons_of_mem q hp))

theorem contains_of_mem_names {l : List String} {m : String} (h : m ∈ l) :
    l.contains m = true := by
  rw [List.contains_iff_exists_mem_beq]
  exact ⟨m, h, by simp⟩

/-- C10: the tutorial's schema evolution is idempotent: on a schema already
containing fields named user_country, browser and is_mobile,
evolve_schema_add_fields changes nothing, and running it twice yields the same
schema as running it once. -/
theorem evolve_schema_add_fields_idempotent :
    (∀ s : Schema, "user_country" ∈ schemaNames s → "browser" ∈ schemaNames s →
      "is_mobile" ∈ schemaNames s → evolveSchemaAddFields s = s) ∧
    (∀ s : Schema,
      evolveSchemaAddFields (evolveSchemaAddFields s) = evolveSchemaAddFields s) := by
  have hfix : ∀ s : Schema, (∀ p ∈ fieldsToAdd, p.1 ∈ schemaNames s) →
      evolveSchemaAddFields s = s := by
    intro s h
    unfold evolveSchemaAddFields
    exact foldl_skip_all _ _ _ (fun p hp => contains_of_mem_names (h p hp))
  constructor
  · intro s h1 h2 h3
    apply hfix
    intro p hp
    simp only [fieldsToAdd, List.mem_cons, List.not_mem_nil, or_false] at hp
    rcases hp with rfl | rfl | rfl
    · exact h1
    · exact h2
    · exact h3
  · intro s
    apply hfix
    intro p hp
    unfold evolveSchemaAddFields
    exact targets_foldl (schemaNames s) fieldsToAdd s (fun m hm => hm) p hp

theorem evolve_schema_add_fields_idempotent_witness :
    evolveSchemaAddFields witEvolvedSchema = witEvolvedSchema :=
  evolve_schema_add_fields_idempotent.1 witEvolvedSchema
    (by decide) (by decide) (by decide)

theorem canPromote_refl (a : FType) : canPromote a a = true := by
  simp [canPromote]

theorem canPromote_trans {a b c : FType} (hab : canPromote a b = true)
    (hbc : canPromote b c = true) : canPromote a c = true := by
  cases a <;> cases b <;> cases c <;> simp_all [canPromote, allowedWidening]

theorem le_foldr_max {l : List Nat} {x : Nat} (h : x ∈ l) :
    x ≤ l.foldr Nat.max 0 := by
  induction l with
  | nil => cases h
  | cons y ys ih =>
    rcases List.mem_cons.mp h with rfl | h
    · exact Nat.le_max_left _ _
    · exact le_trans (ih h) (Nat.le_max_right _ _)

theorem nextFieldId_not_mem (s : Schema) : nextFieldId s ∉ schemaIds s := by
  intro h
  have := le_foldr_max h
  simp only [nextFieldId] at this
  omega

theorem schemaIds_map_same {s : Schema} {g : NestedField → NestedField}
    (h : ∀ f, (g f).fieldId = f.fieldId) :
    schemaIds ⟨s.fields.map g⟩ = schemaIds s := by
  simp only [schemaIds, List.map_map]
  congr 1
  funext f
  exact h f

theorem field_unique {s : Schema} {f g : NestedField}
    (hnd : (schemaIds s).Nodup) (hf : f ∈ s.fields) (hg : g ∈ s.fields)
    (hid : f.fieldId = g.fieldId) : f = g :=
  List.inj_on_of_nodup_map hnd hf hg hid

theorem applyOp_nodup {s s₁ : Schema} {op : SchemaOp}
    (h : applyOp s op = Except.ok s₁) (hnd : (schemaIds s).Nodup) :
    (schemaIds s₁).Nodup := by
  cases op with
  | addField n t =>
    cases h
    simp only [schemaIds, List.map_append, List.map_cons, List.map_nil]
    rw [List.nodup_append]
    refine ⟨hnd, List.nodup_singleton _, ?_⟩
    intro a ha hb
    simp only [List.mem_singleton] at hb
    subst hb
    exact nextFieldId_not_mem s ha
  | renameField id n =>
    cases h
    rw [schemaIds_map_same]
    · exact hnd
    · intro f; by_cases hf : f.fieldId == id <;> simp [hf]
  | promoteType id t =>
    cases hfind : s.fields.find? (fun f => f.fieldId == id) with
    | none => simp [applyOp, hfind] at h
    | some f =>
      simp only [applyOp, hfind] at h
      by_cases hw : allowedWidening f.ftype t = true
      · rw [if_pos hw] at h
        cases h
        rw [schemaIds_map_same]
        · exact hnd
        · intro g; by_cases hg : g.fieldId == id <;> simp [hg]
      · rw [if_neg hw] at h
        exact Except.noConfusion h

theorem applyOp_tracks {s s₁ : Schema} {op : SchemaOp}
    (hnd : (schemaIds s).Nodup) (h : applyOp s op = Except.ok s₁) :
    ∀ f ∈ s.fields, ∃ f₁ ∈ s₁.fields,
      f₁.fieldId = f.fieldId ∧ canPromote f.ftype f₁.ftype = true := by
  intro f hf
  cases op with
  | addField n t =>
    cases h
    exact ⟨f, List.mem_append_left _ hf, rfl, canPromote_refl _⟩
  | renameField id n =>
    cases h
    refine ⟨if f.fieldId == id then { f with name := n } else f,
      List.mem_map_of_mem _ hf, ?_, ?_⟩
    · by_cases hc : f.fieldId == id <;> simp [hc]
    · by_cases hc : f.fieldId == id <;> simp [hc, canPromote_refl]
  | promoteType id t =>
    cases hfind : s.fields.find? (fun g => g.fieldId == id) with
    | none => simp [applyOp, hfind] at h
    | some g =>
      simp only [applyOp, hfind] at h
      by_cases hw : allowedWidening g.ftype t = true
      · rw [if_pos hw] at h
        cases h
        refine ⟨if f.fieldId == id then { f with ftype := t } else f,
          List.mem_map_of_mem _ hf, ?_, ?_⟩
        · by_cases hc : f.fieldId == id <;> simp [hc]
        · by_cases hc : f.fieldId == id
          · have hgmem := List.mem_of_find?_eq_some hfind
            have hgid : g.fieldId = id := by simpa using List.find?_some hfind
            have hfid : f.fieldId = id := by simpa using hc
            have : f = g := field_unique hnd hf hgmem (hfid.trans hgid.symm)
            subst this
            simp [hc, canPromote, hw]
          · simp [hc, canPromote_refl]
      · rw [if_neg hw] at h
        exact Except.noConfusion h

theorem applyOps_nodup {s s₁ : Schema} {ops : List SchemaOp}
    (h : applyOps s ops = Except.ok s₁) (hnd : (schemaIds s).Nodup) :
    (schemaIds s₁).Nodup := by
  induction ops generalizing s with
  | nil => cases h; exact hnd
  | cons op rest ih =>
    simp only [applyOps] at h
    cases hop : applyOp s op with
    | error e => rw [hop] at h; cases h
    | ok s₂ =>
      rw [hop] at h
      exact ih h (applyOp_nodup hop hnd)

theorem applyOps_tracks {s s₁ : Schema} {ops : List SchemaOp}
    (hnd : (schemaIds s).Nodup) (h : applyOps s ops = Except.ok s₁) :
    ∀ f ∈ s.fields, ∃ f₁ ∈ s₁.fields,
      f₁.fieldId = f.fieldId ∧ canPromote f.ftype f₁.ftype = true := by
  induction ops generalizing s with
  | nil =>
    cases h
    intro f hf
    exact ⟨f, hf, rfl, canPromote_refl _⟩
  | cons op rest ih =>
    simp only [applyOps] at h
    cases hop : applyOp s op with
    | error e => rw [hop] at h; cases h
    | ok s₂ =>
      rw [hop] at h
      intro f hf
      obtain ⟨f₂, hf₂, hid₂, hcp₂⟩ := applyOp_tracks hnd hop f hf
      obtain ⟨f₁, hf₁, hid₁, hcp₁⟩ := ih (applyOp_nodup hop hnd) h f₂ hf₂
      exact ⟨f₁, hf₁, hid₁.trans hid₂, canPromote_trans hcp₂ hcp₁⟩

theorem allowedWidening_eq {a b : FType} (h : allowedWidening a b = true) :
    a = FType.int32 ∧ b = FType.int64 := by
  cases a <;> cases b <;> simp_all [allowedWidening]

theorem promoteValue_of_canPromote {v : Value} {b : FType}
    (h : canPromote (typeOf v) b = true) :
    ∃ v', promoteValue v b = some v' ∧
      (v' = v ∨ ∃ n, v = Value.vInt32 n ∧ v' = Value.vInt64 n) := by
  have h' : typeOf v = b ∨ allowedWidening (typeOf v) b = true := by
    simpa [canPromote] using h
  rcases h' with heq | hw
  · exact ⟨v, by simp [promoteValue, heq], Or.inl rfl⟩
  · obtain ⟨ha, hb⟩ := allowedWidening_eq hw
    subst hb
    cases v with
    | vInt32 n => exact ⟨Value.vInt64 n, rfl, Or.inr ⟨n, rfl, rfl⟩⟩
    | vInt64 n => exact absurd ha (by simp [typeOf])
    | vStr s => exact absurd ha (by simp [typeOf])
    | vBool c => exact absurd ha (by simp [typeOf])
    | vTs n => exact absurd ha (by simp [typeOf])

theorem find?_field_none {s : Schema} {id : Nat} (h : id ∉ schemaIds s) :
    s.fields.find? (fun g => g.fieldId == id) = none := by
  rw [List.find?_eq_none]
  intro g hg
  simp only [beq_iff_eq]
  intro he
  exact h (he ▸ List.mem_map_of_mem (fun f => f.fieldId) hg)

theorem find?_field_self {s : Schema} {f : NestedField}
    (hnd : (schemaIds s).Nodup) (hf : f ∈ s.fields) :
    s.fields.find? (fun g => g.fieldId == f.fieldId) = some f := by
  cases hfind : s.fields.find? (fun g => g.fieldId == f.fieldId) with
  | none =>
    rw [List.find?_eq_none] at hfind
    exact absurd (by simp : (f.fieldId == f.fieldId) = true) (hfind f hf)
  | some g =>
    have hgmem := List.mem_of_find?_eq_some hfind
    have hgid : g.fieldId = f.fieldId := by simpa using List.find?_some hfind
    rw [field_unique hnd hgmem hf hgid]

/-- C4: after evolving a schema by adding nullable fields, renaming and
widening, every pre-evolution row stays readable under the new schema: each
new-schema field whose id is absent from the old file's schema reads NULL, and
each field inherited from the old schema reads the stored value, promoted
exactly along the widening table (an int32 value read at int64 keeps its
integer payload); no data file is rewritten. -/
theorem schema_evolution_roundtrip (s₀ s₁ : Schema) (ops : List SchemaOp)
    (row : FileRow) (hnd : (schemaIds s₀).Nodup)
    (hev : applyOps s₀ ops = Except.ok s₁) (hwt : WellTyped s₀ row) :
    ∀ f₁ ∈ s₁.fields,
      (f₁.fieldId ∉ schemaIds s₀ → readField s₀ row f₁ = none) ∧
      (f₁.fieldId ∈ schemaIds s₀ → ∃ v v', row.lookup f₁.fieldId = some v ∧
        readField s₀ row f₁ = some v' ∧
        (v' = v ∨ ∃ n, v = Value.vInt32 n ∧ v' = Value.vInt64 n)) := by
  intro f₁ hf₁
  constructor
  · intro hid
    simp [readField, find?_field_none hid]
  · intro hid
    obtain ⟨f₀, hf₀, hfid⟩ : ∃ f₀ ∈ s₀.fields, f₀.fieldId = f₁.fieldId := by
      simpa [schemaIds, List.mem_map] using hid
    obtain ⟨f₁', hf₁', hid₁', hcp⟩ := applyOps_tracks hnd hev f₀ hf₀
    have heq : f₁' = f₁ :=
      field_unique (applyOps_nodup hev hnd) hf₁' hf₁ (hid₁'.trans hfid)
    subst heq
    obtain ⟨v, hv, hvt⟩ := hwt f₀ hf₀
    have hcp' : canPromote (typeOf v) f₁'.ftype = true := hvt ▸ hcp
    obtain ⟨v', hp, hrel⟩ := promoteValue_of_canPromote hcp'
    refine ⟨v, v', ?_, ?_, hrel⟩
    · rw [← hfid]; exact hv
    · have hfind : s₀.fields.find? (fun g => g.fieldId == f₁'.fieldId) = some f₀ := by
        rw [← hfid]
        exact find?_field_self hnd hf₀
      rw [readField, hfind, ← hfid, hv]
      simpa using hp

theorem schema_evolution_roundtrip_witness :
    readField witFileSchema witFileRow ⟨3, "user_country", FType.stringT, false⟩ = none ∧
    (∃ v v', witFileRow.lookup 1 = some v ∧
      readField witFileSchema witFileRow ⟨1, "http_status", FType.int64, true⟩ = some v' ∧
      (v' = v ∨ ∃ n, v = Value.vInt32 n ∧ v' = Value.vInt64 n)) := by
  have H := schema_evolution_roundtrip witFileSchema witReadSchema witEvolveOps witFileRow
    (by decide) (by rfl)
    (by
      intro f hf
      simp only [witFileSchema, List.mem_cons, List.not_mem_nil, or_false] at hf
      rcases hf with rfl | rfl
      · exact ⟨Value.vInt32 200, rfl, rfl⟩
      · exact ⟨Value.vStr "/api", rfl, rfl⟩)
  exact ⟨(H ⟨3, "user_country", FType.stringT, false⟩ (by decide)).1 (by decide),
         (H ⟨1, "http_status", FType.int64, true⟩ (by decide)).2 (by decide)⟩

end IceSpec
